import Mathlib

/-!
Shallow embedding of the subtitle-timing core of CaptionCraft Studio:
`src/core/vtt_engine/vtt_generator.py` (timestamp parsing/formatting,
caption insertion, word-by-word karaoke timing) and the segment
normalisation helpers of `src/main_app.py` (`_convert_whisper_to_vtt`,
`_convert_text_to_timed_vtt`, `_split_into_subtitles`).

Python strings are modelled as `List Char`; Python `timedelta` values and
float second counts are modelled exactly, as integer milliseconds (`Int`)
or rationals (`ℚ`).  Code that can raise is modelled with `Option`
(`none` = the uncaught exception).
-/

set_option autoImplicit false

namespace CaptionCraft

/-! ### Character classes (ASCII model of the Python predicates) -/

/-- Whitespace characters recognised by Python's `str.split()` / `str.strip()`
(ASCII subset). -/
def isSpaceChar (c : Char) : Bool :=
  c = ' ' || c = '\t' || c = '\n' || c = '\r' || c = '\x0b' || c = '\x0c'

/-- Decimal digit (ASCII `'0'`..`'9'`), the characters accepted by `int()`
in the model. -/
def isDigitChar (c : Char) : Bool :=
  '0'.toNat ≤ c.toNat && c.toNat ≤ '9'.toNat

/-- The sentence-terminal punctuation of the regex `[.!?]+` in
`_split_into_subtitles`. -/
def isPunctChar (c : Char) : Bool :=
  c = '.' || c = '!' || c = '?'

/-! ### Python string primitives -/

/-- `s.replace(a, b)` for single characters. -/
def replaceChar (a b : Char) (l : List Char) : List Char :=
  l.map (fun c => if c = a then b else c)

/-- `s.split(sep)` with a one-character separator: splits at every
occurrence, keeping empty pieces (`"".split(c) == ['']`). -/
def splitSep (c : Char) : List Char → List (List Char)
  | [] => [[]]
  | x :: xs =>
    if x = c then [] :: splitSep c xs
    else
      match splitSep c xs with
      | [] => [[x]]
      | p :: ps => (x :: p) :: ps

/-- `s.split()` with no argument: split on whitespace runs, discarding
empty pieces. -/
def splitWS : List Char → List (List Char)
  | [] => []
  | x :: xs =>
    if isSpaceChar x then splitWS xs
    else
      match xs, splitWS xs with
      | [], _ => [[x]]
      | y :: _, r =>
        if isSpaceChar y then [x] :: r
        else
          match r with
          | [] => [[x]]
          | w :: ws => (x :: w) :: ws

/-- `re.split(r'[.!?]+', s)`: split at every maximal run of `.`, `!`, `?`,
keeping empty pieces at the boundaries. -/
def splitPunctRuns : List Char → List (List Char)
  | [] => [[]]
  | x :: xs =>
    if isPunctChar x then
      match xs with
      | [] => [[], []]
      | y :: _ =>
        if isPunctChar y then splitPunctRuns xs
        else [] :: splitPunctRuns xs
    else
      match splitPunctRuns xs with
      | [] => [[x]]
      | p :: ps => (x :: p) :: ps

/-- `s.strip()`: drop whitespace from both ends. -/
def pyStrip (l : List Char) : List Char :=
  ((l.dropWhile isSpaceChar).reverse.dropWhile isSpaceChar).reverse

/-- `' '.join(words)`. -/
def joinSpace : List (List Char) → List Char
  | [] => []
  | [w] => w
  | w :: ws => w ++ ' ' :: joinSpace ws

/-- `[l[i:i+n] for i in range(0, len(l), n)]`: greedy chunks of `n`
elements (`n ≥ 1`; the stride pattern of the Python list slices). -/
def chunksOf {α : Type} (n : Nat) : List α → List (List α)
  | [] => []
  | x :: xs => (x :: xs.take (n - 1)) :: chunksOf n (xs.drop (n - 1))
termination_by l => l.length
decreasing_by simp [List.length_drop]; omega

/-! ### Numerals: `int(s)` and decimal rendering -/

/-- Value of a digit string read left to right. -/
def digitsVal (l : List Char) : Nat :=
  l.foldl (fun acc c => 10 * acc + (c.toNat - '0'.toNat)) 0

/-- Digit run of `int(s)` after the first digit: decimal digits with
single underscores allowed strictly between digits (`"1_0"` is 10,
`"1__0"` and a trailing `"_"` are errors), accumulating onto `acc`. -/
def pyDigitsAux (acc : Nat) : List Char → Option Nat
  | [] => some acc
  | c :: rest =>
    if c = '_' then
      match rest with
      | [] => none
      | d :: rest2 =>
        if isDigitChar d then pyDigitsAux (10 * acc + (d.toNat - '0'.toNat)) rest2 else none
    else if isDigitChar c then pyDigitsAux (10 * acc + (c.toNat - '0'.toNat)) rest
    else none

/-- The digit part of `int(s)`: one leading digit, then digits with
single underscores between digits. -/
def pyDigits? : List Char → Option Nat
  | [] => none
  | c :: rest =>
    if isDigitChar c then pyDigitsAux (c.toNat - '0'.toNat) rest else none

/-- `int(s)`: strip whitespace from both ends, then an optional sign
directly followed by digits with single underscores between digits
(verified against CPython: `int("02 ") = 2`, `int(" 12\n") = 12`,
`int("1_000") = 1000`, while `"1__0"`, `"_1"`, `"1_"`, `"- 1"`, `""`
raise `ValueError`).  ASCII model: the non-ASCII digits and whitespace
CPython also accepts are outside the character classes used here. -/
def pyInt? (l : List Char) : Option Int :=
  match pyStrip l with
  | [] => none
  | c :: rest =>
    if c = '-' then (pyDigits? rest).map (fun n => -(n : Int))
    else if c = '+' then (pyDigits? rest).map (fun n => (n : Int))
    else (pyDigits? (c :: rest)).map (fun n => (n : Int))

/-- The decimal digit character for `n < 10`. -/
def digitChar (n : Nat) : Char :=
  match n with
  | 0 => '0' | 1 => '1' | 2 => '2' | 3 => '3' | 4 => '4'
  | 5 => '5' | 6 => '6' | 7 => '7' | 8 => '8' | _ => '9'

/-- Decimal digits of `n`, most significant first (`str(n)` for `n ≥ 0`). -/
def natToChars (n : Nat) : List Char :=
  if n < 10 then [digitChar n]
  else natToChars (n / 10) ++ [digitChar (n % 10)]
decreasing_by exact Nat.div_lt_self (by omega) (by omega)

/-- `f"{n:02d}"` for `n ≥ 0`. -/
def pad2 (n : Nat) : List Char :=
  if n < 10 then '0' :: natToChars n else natToChars n

/-- `f"{n:03d}"` for `n ≥ 0`. -/
def pad3 (n : Nat) : List Char :=
  if n < 10 then '0' :: '0' :: natToChars n
  else if n < 100 then '0' :: natToChars n
  else natToChars n

/-! ### `VTTGenerator._format_timestamp` / `_parse_timestamp`
(src/core/vtt_engine/vtt_generator.py)

A `timedelta` is modelled as an exact count of milliseconds. -/

/-- `_format_timestamp(td)` for a non-negative `timedelta` of `ms`
milliseconds: `int(td.total_seconds())` split into H/M/S, plus
`td.microseconds // 1000`, rendered `HH:MM:SS.mmm`. -/
def format_timestamp (ms : Nat) : List Char :=
  let totalSeconds := ms / 1000
  let hours := totalSeconds / 3600
  let minutes := (totalSeconds % 3600) / 60
  let seconds := totalSeconds % 60
  let milliseconds := ms % 1000
  pad2 hours ++ ':' :: pad2 minutes ++ ':' :: pad2 seconds ++ '.' :: pad3 milliseconds

/-- `_parse_timestamp(s)`, returning milliseconds.  Replaces `,` with `.`,
splits on `:`; with exactly three fields it parses `H`, `M`, `S[.mmm]`
(`none` inside `body` models the `ValueError`/`IndexError` caught by the
`except` clause, which returns `timedelta(seconds=1)`); any other field
count takes the in-`try` fallback `0, 0, 1, 0`.

This version returns the parsed total unconditionally, collapsing the one
error path the `except (ValueError, IndexError)` clause does NOT cover:
`timedelta(...)` raises an uncaught `OverflowError` when the total leaves
the ±999999999-day range.  `parse_timestamp_checked` below models that
path faithfully and agrees with this function whenever it returns a
value; this idealised total version is what the word-by-word timing
claims use. -/
def parse_timestamp (timestamp : List Char) : Int :=
  let t := replaceChar ',' '.' timestamp
  let parts := splitSep ':' t
  if parts.length = 3 then
    let hs := parts.getD 0 []
    let mins := parts.getD 1 []
    let secMillis := parts.getD 2 []
    let body : Option Int := do
      let secondsParts := splitSep '.' secMillis
      let seconds ← pyInt? (secondsParts.headD [])
      let milliseconds ←
        if secondsParts.length > 1 then pyInt? (secondsParts.getD 1 []) else some 0
      let hours ← pyInt? hs
      let minutes ← pyInt? mins
      some (hours * 3600000 + minutes * 60000 + seconds * 1000 + milliseconds)
    body.getD 1000
  else 1000

/-- `timedelta(hours=h, minutes=m, seconds=s, milliseconds=ms)` for an
exact total of `ms` milliseconds: CPython normalises the arguments with
exact integer arithmetic and raises `OverflowError` iff the normalised
day count (floor division) has magnitude above 999999999 (verified:
`timedelta(days=1000000000)` and `timedelta(days=-999999999, seconds=-1)`
raise, huge components that cancel to an in-range total do not).
`none` models the raised `OverflowError`. -/
def timedeltaMs? (ms : Int) : Option Int :=
  if -999999999 ≤ Int.fdiv ms 86400000 ∧ Int.fdiv ms 86400000 ≤ 999999999 then some ms
  else none

/-- `_parse_timestamp(s)` with the full error behaviour: identical to
`parse_timestamp` except that the final `timedelta(...)` construction is
modelled by `timedeltaMs?`, so `none` is the `OverflowError` that the
`except (ValueError, IndexError)` clause does not catch and that
propagates to the caller.  The `ValueError`/`IndexError` paths (caught,
yielding `timedelta(seconds=1)`) and the wrong-field-count fallback
`0, 0, 1, 0` return `some 1000` as before. -/
def parse_timestamp_checked (timestamp : List Char) : Option Int :=
  let t := replaceChar ',' '.' timestamp
  let parts := splitSep ':' t
  if parts.length = 3 then
    let hs := parts.getD 0 []
    let mins := parts.getD 1 []
    let secMillis := parts.getD 2 []
    let body : Option Int := do
      let secondsParts := splitSep '.' secMillis
      let seconds ← pyInt? (secondsParts.headD [])
      let milliseconds ←
        if secondsParts.length > 1 then pyInt? (secondsParts.getD 1 []) else some 0
      let hours ← pyInt? hs
      let minutes ← pyInt? mins
      some (hours * 3600000 + minutes * 60000 + seconds * 1000 + milliseconds)
    match body with
    | none => some 1000
    | some total => timedeltaMs? total
  else some 1000

/-! ### `VTTGenerator.add_caption` -/

/-- One entry of `self.captions`: the dict
`{'start': ..., 'end': ..., 'text': ..., 'style': ...}`. -/
structure Caption where
  start : List Char
  stop : List Char
  text : List Char
  style : Option (List Char)
deriving DecidableEq

/-- `add_caption(start_time, end_time, text, style)`: builds the caption
dict and appends it to `self.captions`, with no validation of any kind. -/
def add_caption (captions : List Caption) (start_time end_time text : List Char)
    (style : Option (List Char)) : List Caption :=
  captions ++ [⟨start_time, end_time, text, style⟩]

/-! ### `VTTGenerator.generate_word_by_word_caption` -/

/-- One generated chunk dict.  `startQ`/`stopQ` are the exact `timedelta`
values (in milliseconds, rationals because `duration / total_words` need
not be integral); `start`/`stop` are their `_format_timestamp` renderings
(the dict's actual string values). -/
structure RawChunk where
  startQ : ℚ
  stopQ : ℚ
  start : List Char
  stop : List Char
  text : List Char
deriving DecidableEq

/-- The `for i in range(0, total_words, words_per_chunk)` loop of
`generate_word_by_word_caption`: each stride takes `words_per_chunk`
words and a slice of `word_duration * words_per_chunk`, accumulating
from `cur`. -/
def wbwChunks (wpc : Nat) (wd : ℚ) (cur : ℚ) : List (List Char) → List RawChunk
  | [] => []
  | w :: ws =>
    let chunkEnd := cur + wd * wpc
    ⟨cur, chunkEnd, format_timestamp (Int.toNat ⌊cur⌋), format_timestamp (Int.toNat ⌊chunkEnd⌋),
      joinSpace (w :: ws.take (wpc - 1))⟩
      :: wbwChunks wpc wd chunkEnd (ws.drop (wpc - 1))
termination_by l => l.length
decreasing_by simp [List.length_drop]; omega

/-- `generate_word_by_word_caption(start_time, end_time, text,
words_per_chunk)`.  `none` models the exceptions the function does not
catch: `ZeroDivisionError` from `duration / total_words` when the text
has no words, and `ValueError` from `range(0, n, 0)` when
`words_per_chunk == 0`. -/
def generate_word_by_word_caption (start_time end_time text : List Char)
    (words_per_chunk : Nat) : Option (List RawChunk) :=
  let words := splitWS text
  let total_words := words.length
  if total_words = 0 then none
  else if words_per_chunk = 0 then none
  else
    let duration : ℚ := ((parse_timestamp end_time : Int) : ℚ) - ((parse_timestamp start_time : Int) : ℚ)
    let word_duration : ℚ := duration / (total_words : ℚ)
    some (wbwChunks words_per_chunk word_duration ((parse_timestamp start_time : Int) : ℚ) words)

/-! ### `main_app.py` segment normalisation helpers

Float second counts are modelled as exact rationals. -/

/-- Python `int(q)` on a rational: truncation toward zero. -/
def pyTrunc (q : ℚ) : Int := q.num / (q.den : Int)

/-- `CaptionCraftStudio._format_timestamp(seconds)` (main_app.py):
`seconds` is a float count of seconds; `//` and `%` are Python floor
division and modulus. -/
def main_format_timestamp (seconds : ℚ) : List Char :=
  let hours := pyTrunc ((⌊seconds / 3600⌋ : Int) : ℚ)
  let minutes := pyTrunc ((⌊(seconds - 3600 * ⌊seconds / 3600⌋) / 60⌋ : Int) : ℚ)
  let secondsRemaining : ℚ := seconds - 60 * ⌊seconds / 60⌋
  let milliseconds := pyTrunc ((secondsRemaining - (pyTrunc secondsRemaining : ℚ)) * 1000)
  pad2 hours.toNat ++ ':' :: pad2 minutes.toNat ++ ':' :: pad2 (pyTrunc secondsRemaining).toNat
    ++ '.' :: pad3 milliseconds.toNat

/-- One Whisper segment dict: `{"start": float, "end": float, "text": str}`. -/
structure WhisperSeg where
  start : ℚ
  stop : ℚ
  text : List Char
deriving DecidableEq

/-- One numbered cue written into the VTT output text.  `startQ`/`stopQ`
are the segment's timing values as passed to `_format_timestamp`;
`start`/`stop` their rendered strings. -/
structure Cue where
  idx : Nat
  startQ : ℚ
  stopQ : ℚ
  start : List Char
  stop : List Char
  text : List Char
deriving DecidableEq

/-- The `for i, segment in enumerate(segments, 1)` loop of
`_convert_whisper_to_vtt`: formats each segment's times, strips its text,
and emits a cue only when the stripped text is non-empty.  The index `i`
counts every segment, dropped ones included. -/
def whisperCues (i : Nat) : List WhisperSeg → List Cue
  | [] => []
  | seg :: rest =>
    let text := pyStrip seg.text
    (if text ≠ [] then
      [⟨i, seg.start, seg.stop, main_format_timestamp seg.start, main_format_timestamp seg.stop, text⟩]
     else []) ++ whisperCues (i + 1) rest

/-- `_convert_whisper_to_vtt(segments)`: the cues appended after the
`"WEBVTT\n\n"` header. -/
def convert_whisper_to_vtt (segments : List WhisperSeg) : List Cue :=
  whisperCues 1 segments

/-- `_split_into_subtitles(text)`: split on `[.!?]+`, strip and drop
empty candidates, and re-chunk any candidate of more than 15 words into
slices of 10 words re-joined with spaces. -/
def split_into_subtitles (text : List Char) : List (List Char) :=
  let sentences := ((splitPunctRuns text).map pyStrip).filter (· ≠ [])
  sentences.flatMap (fun sentence =>
    let words := splitWS sentence
    if words.length ≤ 15 then [sentence]
    else (chunksOf 10 words).map joinSpace)

/-- One numbered cue of the plain-text fallback output.  `startQ`/`stopQ`
are the float second values `i * time_per_chunk` and
`min((i + 1) * time_per_chunk, total_duration)` the code formats into the
cue's timing line. -/
structure TimedCue where
  idx : Nat
  startQ : ℚ
  stopQ : ℚ
  text : List Char
deriving DecidableEq

/-- The `for i, sentence in enumerate(sentences)` loop of
`_convert_text_to_timed_vtt`: cue `i + 1` spans
`[i * tpc, min ((i + 1) * tpc, total)]` and is emitted only when the
stripped sentence is non-empty. -/
def timedCues (tpc total : ℚ) (i : Nat) : List (List Char) → List TimedCue
  | [] => []
  | s :: rest =>
    (if pyStrip s ≠ [] then
      [⟨i + 1, (i : ℚ) * tpc, min (((i : ℚ) + 1) * tpc) total, pyStrip s⟩]
     else []) ++ timedCues tpc total (i + 1) rest

/-- `_convert_text_to_timed_vtt(text, total_duration)`: the cues appended
after the `"WEBVTT\n\n"` header.  `time_per_chunk` is
`total_duration / len(sentences)` when there are sentences, else
`total_duration` (and then the loop body never runs).  Total by
construction: the division is by the chunk count, never by the duration. -/
def convert_text_to_timed_vtt (text : List Char) (total_duration : ℚ) : List TimedCue :=
  let sentences := split_into_subtitles text
  let time_per_chunk : ℚ :=
    if sentences ≠ [] then total_duration / (sentences.length : ℚ) else total_duration
  timedCues time_per_chunk total_duration 0 sentences

/-! ### Literal strings -/

/-- Character list of a string literal, for concrete test inputs. -/
def strOf (s : String) : List Char := s.data

/-- The chunks returned by `generate_word_by_word_caption` accumulate
forward from `cur`: each chunk starts where the previous one ended, the
first at `cur`. -/
def ChunksChained : ℚ → List RawChunk → Prop
  | _, [] => True
  | cur, c :: cs => c.startQ = cur ∧ ChunksChained c.stopQ cs

/-! ### Lemmas: decimal digits round-trip through `int()` -/

theorem digitChar_toNat {n : Nat} (h : n < 10) : (digitChar n).toNat = '0'.toNat + n := by
  interval_cases n <;> rfl

theorem isDigitChar_digitChar {n : Nat} (h : n < 10) : isDigitChar (digitChar n) = true := by
  interval_cases n <;> rfl

theorem natToChars_ne_nil (n : Nat) : natToChars n ≠ [] := by
  rw [natToChars]
  split <;> simp

theorem natToChars_all_digits (n : Nat) : ∀ c ∈ natToChars n, isDigitChar c = true := by
  induction n using Nat.strong_induction_on with
  | _ n ih =>
    rw [natToChars]
    by_cases h : n < 10
    · rw [if_pos h]
      simpa using isDigitChar_digitChar h
    · rw [if_neg h]
      intro c hc
      rcases List.mem_append.mp hc with h1 | h1
      · exact ih (n / 10) (Nat.div_lt_self (by omega) (by omega)) c h1
      · simp only [List.mem_singleton] at h1
        subst h1
        exact isDigitChar_digitChar (Nat.mod_lt _ (by omega))

theorem digitsVal_append_digit (l : List Char) (c : Char) :
    digitsVal (l ++ [c]) = 10 * digitsVal l + (c.toNat - '0'.toNat) := by
  simp [digitsVal, List.foldl_append]

theorem digitsVal_natToChars (n : Nat) : digitsVal (natToChars n) = n := by
  induction n using Nat.strong_induction_on with
  | _ n ih =>
    rw [natToChars]
    by_cases h : n < 10
    · rw [if_pos h]
      simp [digitsVal, digitChar_toNat h]
    · rw [if_neg h, digitsVal_append_digit, ih (n / 10) (Nat.div_lt_self (by omega) (by omega)),
        digitChar_toNat (Nat.mod_lt _ (by omega))]
      omega

theorem digitsVal_cons_zero (l : List Char) : digitsVal ('0' :: l) = digitsVal l := by
  simp [digitsVal]

theorem pad2_ne_nil (n : Nat) : pad2 n ≠ [] := by
  unfold pad2
  split
  · simp
  · exact natToChars_ne_nil n

theorem pad3_ne_nil (n : Nat) : pad3 n ≠ [] := by
  unfold pad3
  split
  · simp
  · split
    · simp
    · exact natToChars_ne_nil n

theorem pad2_all_digits (n : Nat) : ∀ c ∈ pad2 n, isDigitChar c = true := by
  unfold pad2
  split
  · intro c hc
    rcases List.mem_cons.mp hc with rfl | h1
    · rfl
    · exact natToChars_all_digits n c h1
  · exact natToChars_all_digits n

theorem pad3_all_digits (n : Nat) : ∀ c ∈ pad3 n, isDigitChar c = true := by
  unfold pad3
  split
  · intro c hc
    rcases List.mem_cons.mp hc with rfl | h1
    · rfl
    rcases List.mem_cons.mp h1 with rfl | h2
    · rfl
    · exact natToChars_all_digits n c h2
  · split
    · intro c hc
      rcases List.mem_cons.mp hc with rfl | h1
      · rfl
      · exact natToChars_all_digits n c h1
    · exact natToChars_all_digits n

theorem digitsVal_pad2 (n : Nat) : digitsVal (pad2 n) = n := by
  unfold pad2
  split <;> simp [digitsVal_cons_zero, digitsVal_natToChars]

theorem digitsVal_pad3 (n : Nat) : digitsVal (pad3 n) = n := by
  unfold pad3
  split
  · simp [digitsVal_cons_zero, digitsVal_natToChars]
  · split <;> simp [digitsVal_cons_zero, digitsVal_natToChars]

theorem isDigitChar_ne (c x : Char) (hc : isDigitChar c = true) (hx : isDigitChar x = false) :
    c ≠ x := by
  intro h
  subst h
  rw [hc] at hx
  cases hx

theorem digit_not_underscore {c : Char} (h : isDigitChar c = true) : c ≠ '_' :=
  isDigitChar_ne c '_' h (by decide)

theorem digit_not_space {c : Char} (h : isDigitChar c = true) : isSpaceChar c = false := by
  have h1 : c ≠ ' ' := isDigitChar_ne c ' ' h (by decide)
  have h2 : c ≠ '\t' := isDigitChar_ne c '\t' h (by decide)
  have h3 : c ≠ '\n' := isDigitChar_ne c '\n' h (by decide)
  have h4 : c ≠ '\r' := isDigitChar_ne c '\r' h (by decide)
  have h5 : c ≠ '\x0b' := isDigitChar_ne c '\x0b' h (by decide)
  have h6 : c ≠ '\x0c' := isDigitChar_ne c '\x0c' h (by decide)
  simp [isSpaceChar, h1, h2, h3, h4, h5, h6]

theorem dropWhile_eq_self_of_all {α : Type} (p : α → Bool) (l : List α)
    (h : ∀ c ∈ l, p c = false) : l.dropWhile p = l := by
  cases l with
  | nil => rfl
  | cons x xs =>
    rw [List.dropWhile]
    rw [h x (List.mem_cons_self x xs)]

theorem pyStrip_eq_self_of_no_space (l : List Char)
    (h : ∀ c ∈ l, isSpaceChar c = false) : pyStrip l = l := by
  unfold pyStrip
  rw [dropWhile_eq_self_of_all _ l h,
    dropWhile_eq_self_of_all _ l.reverse (fun c hc => h c (List.mem_reverse.mp hc)),
    List.reverse_reverse]

theorem pyDigitsAux_digits (l : List Char) (hd : ∀ c ∈ l, isDigitChar c = true) :
    ∀ acc : Nat, pyDigitsAux acc l
      = some (l.foldl (fun a c => 10 * a + (c.toNat - '0'.toNat)) acc) := by
  induction l with
  | nil => intro acc; rfl
  | cons c rest ih =>
    intro acc
    have hc : isDigitChar c = true := hd c (List.mem_cons_self c rest)
    rw [pyDigitsAux.eq_def]
    simp only []
    rw [if_neg (digit_not_underscore hc), if_pos hc,
      ih (fun x hx => hd x (List.mem_cons_of_mem c hx)), List.foldl_cons]

theorem pyDigits?_digits (l : List Char) (hne : l ≠ []) (hd : ∀ c ∈ l, isDigitChar c = true) :
    pyDigits? l = some (digitsVal l) := by
  match l with
  | [] => exact absurd rfl hne
  | c :: rest =>
    have hc : isDigitChar c = true := hd c (List.mem_cons_self c rest)
    rw [pyDigits?]
    rw [if_pos hc, pyDigitsAux_digits rest (fun x hx => hd x (List.mem_cons_of_mem c hx))]
    rw [digitsVal, List.foldl_cons]
    norm_num

theorem pyInt?_of_digits (l : List Char) (hne : l ≠ []) (hd : ∀ c ∈ l, isDigitChar c = true) :
    pyInt? l = some ((digitsVal l : Int)) := by
  have hstr : pyStrip l = l :=
    pyStrip_eq_self_of_no_space l (fun c hc => digit_not_space (hd c hc))
  match l with
  | [] => exact absurd rfl hne
  | c :: rest =>
    have hc : isDigitChar c = true := hd c (List.mem_cons_self c rest)
    have h1 : c ≠ '-' := isDigitChar_ne c '-' hc (by decide)
    have h2 : c ≠ '+' := isDigitChar_ne c '+' hc (by decide)
    rw [pyInt?.eq_def, hstr]
    simp only []
    rw [if_neg h1, if_neg h2, pyDigits?_digits (c :: rest) (by simp) hd]
    rfl

theorem pyInt?_pad2 (n : Nat) : pyInt? (pad2 n) = some (n : Int) := by
  rw [pyInt?_of_digits _ (pad2_ne_nil n) (pad2_all_digits n), digitsVal_pad2]

theorem pyInt?_pad3 (n : Nat) : pyInt? (pad3 n) = some (n : Int) := by
  rw [pyInt?_of_digits _ (pad3_ne_nil n) (pad3_all_digits n), digitsVal_pad3]

/-! ### Lemmas: `splitSep` -/

theorem splitSep_ne_nil (c : Char) (l : List Char) : splitSep c l ≠ [] := by
  induction l with
  | nil => simp [splitSep]
  | cons x xs ih =>
    rw [splitSep]
    split
    · simp
    · cases h : splitSep c xs <;> simp

theorem splitSep_no_sep (c : Char) (l : List Char) (h : ∀ x ∈ l, x ≠ c) :
    splitSep c l = [l] := by
  induction l with
  | nil => rfl
  | cons x xs ih =>
    rw [splitSep]
    rw [if_neg (h x (by simp))]
    rw [ih (fun y hy => h y (by simp [hy]))]

theorem splitSep_append (c : Char) (a b : List Char) (ha : ∀ x ∈ a, x ≠ c) :
    splitSep c (a ++ c :: b) = a :: splitSep c b := by
  induction a with
  | nil => simp [splitSep]
  | cons x xs ih =>
    rw [List.cons_append, splitSep]
    rw [if_neg (ha x (by simp))]
    rw [ih (fun y hy => ha y (by simp [hy]))]

theorem digit_ne_colon {c : Char} (h : isDigitChar c = true) : c ≠ ':' :=
  isDigitChar_ne c ':' h (by decide)

theorem digit_ne_dot {c : Char} (h : isDigitChar c = true) : c ≠ '.' :=
  isDigitChar_ne c '.' h (by decide)

theorem digit_ne_comma {c : Char} (h : isDigitChar c = true) : c ≠ ',' :=
  isDigitChar_ne c ',' h (by decide)

theorem replaceChar_eq_self (a b : Char) (l : List Char) (h : ∀ x ∈ l, x ≠ a) :
    replaceChar a b l = l := by
  induction l with
  | nil => rfl
  | cons x xs ih =>
    simp only [replaceChar, List.map_cons]
    rw [if_neg (h x (by simp))]
    have := ih (fun y hy => h y (by simp [hy]))
    simp only [replaceChar] at this
    rw [this]

/-! ### Lemmas: the timestamp round-trip (`_parse_timestamp ∘ _format_timestamp`) -/

theorem format_timestamp_eq (ms : Nat) :
    format_timestamp ms =
      pad2 (ms / 1000 / 3600) ++ ':' :: (pad2 (ms / 1000 % 3600 / 60)
        ++ ':' :: (pad2 (ms / 1000 % 60) ++ '.' :: pad3 (ms % 1000))) := by
  unfold format_timestamp
  simp [List.append_assoc]

theorem format_timestamp_chars (ms : Nat) :
    ∀ x ∈ format_timestamp ms, isDigitChar x = true ∨ x = ':' ∨ x = '.' := by
  rw [format_timestamp_eq]
  intro x hx
  rcases List.mem_append.mp hx with h | hx1
  · exact Or.inl (pad2_all_digits _ x h)
  rcases List.mem_cons.mp hx1 with rfl | hx2
  · exact Or.inr (Or.inl rfl)
  rcases List.mem_append.mp hx2 with h | hx3
  · exact Or.inl (pad2_all_digits _ x h)
  rcases List.mem_cons.mp hx3 with rfl | hx4
  · exact Or.inr (Or.inl rfl)
  rcases List.mem_append.mp hx4 with h | hx5
  · exact Or.inl (pad2_all_digits _ x h)
  rcases List.mem_cons.mp hx5 with rfl | hx6
  · exact Or.inr (Or.inr rfl)
  · exact Or.inl (pad3_all_digits _ x hx6)

/-- C2: parsing the formatted timestamp recovers the exact millisecond
count: `_parse_timestamp(_format_timestamp(d)) == d` for every
non-negative duration `d` of whole milliseconds, hence the round-trip is
within 1 ms (indeed exact). -/
theorem parse_format_roundtrip (ms : Nat) :
    parse_timestamp (format_timestamp ms) = (ms : Int) := by
  have hrep : replaceChar ',' '.' (format_timestamp ms) = format_timestamp ms := by
    refine replaceChar_eq_self ',' '.' _ (fun x hx => ?_)
    rcases format_timestamp_chars ms x hx with h | rfl | rfl
    · exact digit_ne_comma h
    · decide
    · decide
  have hsplit : splitSep ':' (format_timestamp ms) =
      [pad2 (ms / 1000 / 3600), pad2 (ms / 1000 % 3600 / 60),
        pad2 (ms / 1000 % 60) ++ '.' :: pad3 (ms % 1000)] := by
    rw [format_timestamp_eq]
    rw [splitSep_append ':' _ _ (fun x hx => digit_ne_colon (pad2_all_digits _ x hx))]
    rw [splitSep_append ':' _ _ (fun x hx => digit_ne_colon (pad2_all_digits _ x hx))]
    rw [splitSep_no_sep ':' _ (fun x hx => ?_)]
    rcases List.mem_append.mp hx with h | h
    · exact digit_ne_colon (pad2_all_digits _ x h)
    · rcases List.mem_cons.mp h with rfl | h
      · decide
      · exact digit_ne_colon (pad3_all_digits _ x h)
  have hsplit2 : splitSep '.' (pad2 (ms / 1000 % 60) ++ '.' :: pad3 (ms % 1000)) =
      [pad2 (ms / 1000 % 60), pad3 (ms % 1000)] := by
    rw [splitSep_append '.' _ _ (fun x hx => digit_ne_dot (pad2_all_digits _ x hx))]
    rw [splitSep_no_sep '.' _ (fun x hx => digit_ne_dot (pad3_all_digits _ x hx))]
  unfold parse_timestamp
  simp only [hrep, hsplit, hsplit2, List.length_cons, List.length_nil, List.getD, List.get?,
    List.headD, List.head?, if_pos, pyInt?_pad2, pyInt?_pad3, Option.bind, Option.getD]
  norm_num
  omega

/-- C5 counterexample: `_parse_timestamp` does NOT return for every input
string: at the well-formed three-field input `"99999999999:0:0"` the
parsed total (99999999999 hours) leaves `timedelta`'s ±999999999-day
range, so the `timedelta(...)` construction raises `OverflowError`,
which `except (ValueError, IndexError)` does not catch (modelled by
`parse_timestamp_checked` returning `none`) — the function raises
instead of returning any duration. -/
theorem parse_timestamp_overflow_cex :
    parse_timestamp_checked (strOf "99999999999:0:0") = none ∧
    (splitSep ':' (replaceChar ',' '.' (strOf "99999999999:0:0"))).length = 3 := by
  constructor <;> rfl

/-- C5 amended: `_parse_timestamp` raises only when the parsed total
overflows `timedelta`'s day range (third conjunct: a `none` result means
the idealised total itself fails the `timedelta` bound); for every other
input it returns, and malformed input returns exactly a 1-second
duration: wrong field count when splitting on `:` (first conjunct), or —
with three fields — any component rejected by `int()` (second conjunct;
`int()` modelled for ASCII numerals with whitespace stripping, one sign
and underscore grouping); in particular `"bad-timestamp"` returns 1
second (fourth conjunct). -/
theorem parse_timestamp_checked_spec :
    (∀ s, (splitSep ':' (replaceChar ',' '.' s)).length ≠ 3 →
      parse_timestamp_checked s = some 1000) ∧
    (∀ s, (splitSep ':' (replaceChar ',' '.' s)).length = 3 →
      (pyInt? ((splitSep ':' (replaceChar ',' '.' s)).getD 0 []) = none ∨
       pyInt? ((splitSep ':' (replaceChar ',' '.' s)).getD 1 []) = none ∨
       pyInt? ((splitSep '.' ((splitSep ':' (replaceChar ',' '.' s)).getD 2 [])).headD []) = none ∨
       ((splitSep '.' ((splitSep ':' (replaceChar ',' '.' s)).getD 2 [])).length > 1 ∧
        pyInt? ((splitSep '.' ((splitSep ':' (replaceChar ',' '.' s)).getD 2 [])).getD 1 []) = none)) →
      parse_timestamp_checked s = some 1000) ∧
    (∀ s, parse_timestamp_checked s = none →
      timedeltaMs? (parse_timestamp s) = none) ∧
    parse_timestamp_checked (strOf "bad-timestamp") = some 1000 := by
  refine ⟨fun s h => ?_, fun s h3 hbad => ?_, fun s hnone => ?_, by rfl⟩
  · unfold parse_timestamp_checked
    rw [if_neg h]
  · unfold parse_timestamp_checked
    rw [if_pos h3]
    simp only []
    rcases hbad with h | h | h | ⟨hlen, h⟩
    · cases hsec : pyInt? ((splitSep '.' ((splitSep ':' (replaceChar ',' '.' s)).getD 2 [])).headD []) with
      | none => rfl
      | some v =>
        simp only [Option.bind_eq_bind, Option.some_bind]
        by_cases hc : (splitSep '.' ((splitSep ':' (replaceChar ',' '.' s)).getD 2 [])).length > 1
        · rw [if_pos hc]
          cases hm : pyInt? ((splitSep '.' ((splitSep ':' (replaceChar ',' '.' s)).getD 2 [])).getD 1 []) with
          | none => rfl
          | some m => simp only [Option.bind_eq_bind, Option.some_bind]; rw [h]; rfl
        · rw [if_neg hc]
          rw [h]; rfl
    · cases hsec : pyInt? ((splitSep '.' ((splitSep ':' (replaceChar ',' '.' s)).getD 2 [])).headD []) with
      | none => rfl
      | some v =>
        simp only [Option.bind_eq_bind, Option.some_bind]
        by_cases hc : (splitSep '.' ((splitSep ':' (replaceChar ',' '.' s)).getD 2 [])).length > 1
        · rw [if_pos hc]
          cases hm : pyInt? ((splitSep '.' ((splitSep ':' (replaceChar ',' '.' s)).getD 2 [])).getD 1 []) with
          | none => rfl
          | some m =>
            simp only [Option.bind_eq_bind, Option.some_bind]
            cases hh : pyInt? ((splitSep ':' (replaceChar ',' '.' s)).getD 0 []) with
            | none => rfl
            | some hv => simp only [Option.bind_eq_bind, Option.some_bind]; rw [h]; rfl
        · rw [if_neg hc]
          cases hh : pyInt? ((splitSep ':' (replaceChar ',' '.' s)).getD 0 []) with
          | none => rfl
          | some hv => simp only [Option.bind_eq_bind, Option.some_bind]; rw [h]; rfl
    · rw [h]; rfl
    · cases hsec : pyInt? ((splitSep '.' ((splitSep ':' (replaceChar ',' '.' s)).getD 2 [])).headD []) with
      | none => rfl
      | some v =>
        simp only [Option.bind_eq_bind, Option.some_bind]
        rw [if_pos hlen, h]
        rfl
  · unfold parse_timestamp_checked at hnone
    unfold parse_timestamp
    simp only [] at hnone ⊢
    by_cases h3 : (splitSep ':' (replaceChar ',' '.' s)).length = 3
    · rw [if_pos h3] at hnone ⊢
      cases hsec : pyInt? ((splitSep '.' ((splitSep ':' (replaceChar ',' '.' s)).getD 2 [])).headD []) with
      | none => rw [hsec] at hnone; exact Option.noConfusion hnone
      | some v =>
        rw [hsec] at hnone
        simp only [Option.bind_eq_bind, Option.some_bind] at hnone ⊢
        by_cases hc : (splitSep '.' ((splitSep ':' (replaceChar ',' '.' s)).getD 2 [])).length > 1
        · rw [if_pos hc] at hnone ⊢
          cases hm : pyInt? ((splitSep '.' ((splitSep ':' (replaceChar ',' '.' s)).getD 2 [])).getD 1 []) with
          | none => rw [hm] at hnone; exact Option.noConfusion hnone
          | some m =>
            rw [hm] at hnone
            simp only [Option.bind_eq_bind, Option.some_bind] at hnone ⊢
            cases hh : pyInt? ((splitSep ':' (replaceChar ',' '.' s)).getD 0 []) with
            | none => rw [hh] at hnone; exact Option.noConfusion hnone
            | some hv =>
              rw [hh] at hnone
              simp only [Option.bind_eq_bind, Option.some_bind] at hnone ⊢
              cases hmin : pyInt? ((splitSep ':' (replaceChar ',' '.' s)).getD 1 []) with
              | none => rw [hmin] at hnone; exact Option.noConfusion hnone
              | some mv =>
                rw [hmin] at hnone
                simp only [Option.bind_eq_bind, Option.some_bind] at hnone ⊢
                exact hnone
        · rw [if_neg hc] at hnone ⊢
          cases hh : pyInt? ((splitSep ':' (replaceChar ',' '.' s)).getD 0 []) with
          | none => rw [hh] at hnone; exact Option.noConfusion hnone
          | some hv =>
            rw [hh] at hnone
            simp only [Option.bind_eq_bind, Option.some_bind] at hnone ⊢
            cases hmin : pyInt? ((splitSep ':' (replaceChar ',' '.' s)).getD 1 []) with
            | none => rw [hmin] at hnone; exact Option.noConfusion hnone
            | some mv =>
              rw [hmin] at hnone
              simp only [Option.bind_eq_bind, Option.some_bind] at hnone ⊢
              exact hnone
    · rw [if_neg h3] at hnone
      exact Option.noConfusion hnone

/-- C5 witness: the amended theorem's wrong-field-count conjunct applied
at the concrete input `"bad-timestamp"`, which has a single `:`-field and
returns the 1-second default without raising. -/
theorem parse_timestamp_checked_witness :
    parse_timestamp_checked (strOf "bad-timestamp") = some 1000 :=
  parse_timestamp_checked_spec.1 (strOf "bad-timestamp") (by decide)

/-! ### Lemmas: `generate_word_by_word_caption` -/

theorem wbwChunks_nil (wpc : Nat) (wd cur : ℚ) : wbwChunks wpc wd cur [] = [] := by
  simp [wbwChunks]

theorem wbwChunks_cons (wpc : Nat) (wd cur : ℚ) (w : List Char) (ws : List (List Char)) :
    wbwChunks wpc wd cur (w :: ws) =
      ⟨cur, cur + wd * wpc, format_timestamp (Int.toNat ⌊cur⌋),
        format_timestamp (Int.toNat ⌊cur + wd * wpc⌋), joinSpace (w :: ws.take (wpc - 1))⟩
        :: wbwChunks wpc wd (cur + wd * wpc) (ws.drop (wpc - 1)) := by
  simp [wbwChunks]

theorem wbwChunks_eq_nil_iff (wpc : Nat) (wd cur : ℚ) (ws : List (List Char)) :
    wbwChunks wpc wd cur ws = [] ↔ ws = [] := by
  cases ws
  · simp [wbwChunks_nil]
  · simp [wbwChunks_cons]

theorem wbwChunks_chained (wpc : Nat) (wd : ℚ) (cur : ℚ) (ws : List (List Char)) :
    ChunksChained cur (wbwChunks wpc wd cur ws) := by
  induction cur, ws using wbwChunks.induct wpc wd with
  | case1 cur => simp [wbwChunks_nil, ChunksChained]
  | case2 cur w ws _ce ih =>
    rw [wbwChunks_cons]
    exact ⟨rfl, ih⟩

theorem wbwChunks_span (wpc : Nat) (wd : ℚ) (cur : ℚ) (ws : List (List Char)) :
    ∀ c ∈ wbwChunks wpc wd cur ws, c.stopQ - c.startQ = wd * wpc := by
  induction cur, ws using wbwChunks.induct wpc wd with
  | case1 cur => simp [wbwChunks_nil]
  | case2 cur w ws _ce ih =>
    intro c hc
    rw [wbwChunks_cons] at hc
    rcases List.mem_cons.mp hc with rfl | hc
    · simp
    · exact ih c hc

theorem wbwChunks_texts (wpc : Nat) (wd : ℚ) (cur : ℚ) (ws : List (List Char)) :
    (wbwChunks wpc wd cur ws).map RawChunk.text = (chunksOf wpc ws).map joinSpace := by
  induction cur, ws using wbwChunks.induct wpc wd with
  | case1 cur => simp [wbwChunks_nil, chunksOf]
  | case2 cur w ws _ce ih =>
    rw [wbwChunks_cons, chunksOf]
    simpa using ih

theorem wbwChunks_getLast (wpc : Nat) (wd : ℚ) (cur : ℚ) (ws : List (List Char))
    (hne : ws ≠ []) :
    ∃ c, (wbwChunks wpc wd cur ws).getLast? = some c ∧
      c.stopQ = cur + ((wbwChunks wpc wd cur ws).length : ℚ) * (wd * wpc) := by
  induction cur, ws using wbwChunks.induct wpc wd with
  | case1 cur => exact absurd rfl hne
  | case2 cur w ws ce ih =>
    have hce : ce = cur + wd * wpc := rfl
    rw [hce] at ih
    by_cases hr : ws.drop (wpc - 1) = []
    · have hlist : wbwChunks wpc wd cur (w :: ws) =
          [⟨cur, cur + wd * wpc, format_timestamp (Int.toNat ⌊cur⌋),
            format_timestamp (Int.toNat ⌊cur + wd * wpc⌋),
            joinSpace (w :: ws.take (wpc - 1))⟩] := by
        rw [wbwChunks_cons, hr, wbwChunks_nil]
      rw [hlist]
      refine ⟨_, rfl, ?_⟩
      simp
    · obtain ⟨c, hlast, hstop⟩ := ih hr
      refine ⟨c, ?_, ?_⟩
      · rw [wbwChunks_cons]
        obtain ⟨r0, rrest, hre⟩ := List.exists_cons_of_ne_nil
          ((wbwChunks_eq_nil_iff wpc wd (cur + wd * wpc) (ws.drop (wpc - 1))).ne.mpr hr)
        rw [hre] at hlast ⊢
        rw [List.getLast?_cons_cons]
        exact hlast
      · rw [wbwChunks_cons]
        rw [List.length_cons]
        rw [hstop]
        push_cast
        ring

theorem wbwChunks_length_mul_strict (wpc : Nat) (wd : ℚ) (cur : ℚ) (ws : List (List Char))
    (hw : 0 < wpc) (hnd : ¬ wpc ∣ ws.length) :
    ws.length < (wbwChunks wpc wd cur ws).length * wpc := by
  induction cur, ws using wbwChunks.induct wpc wd with
  | case1 cur =>
    simp only [List.length_nil] at hnd
    exact absurd (dvd_zero wpc) hnd
  | case2 cur w ws ce ih =>
    have hce : ce = cur + wd * wpc := rfl
    rw [hce] at ih
    rw [wbwChunks_cons]
    simp only [List.length_cons]
    by_cases hr : ws.length ≤ wpc - 1
    · rw [List.drop_eq_nil_of_le hr, wbwChunks_nil]
      have hne : ws.length + 1 ≠ wpc := by
        intro h
        exact hnd (by simpa [List.length_cons] using h ▸ dvd_refl wpc)
      simp only [List.length_nil, Nat.zero_add]
      omega
    · have hnd' : ¬ wpc ∣ (ws.drop (wpc - 1)).length := by
        rw [List.length_drop]
        intro hdvd
        apply hnd
        obtain ⟨k, hk⟩ := hdvd
        refine ⟨k + 1, ?_⟩
        rw [Nat.mul_add, Nat.mul_one]
        simp only [List.length_cons]
        omega
      have hlt := ih hnd'
      rw [List.length_drop] at hlt
      rw [Nat.add_mul, one_mul]
      set A := (wbwChunks wpc wd (cur + wd * wpc) (ws.drop (wpc - 1))).length * wpc with hA
      omega

/-- C3 (evidence for the code bug): with empty or whitespace-only text the
word count is zero and `generate_word_by_word_caption` evaluates
`duration / total_words` with `total_words == 0`, raising
`ZeroDivisionError` (modelled as `none`) instead of returning an empty
chunk list. -/
theorem generate_word_by_word_empty_text :
    generate_word_by_word_caption (strOf "00:00:01.000") (strOf "00:00:04.000") (strOf "") 1
      = none ∧
    generate_word_by_word_caption (strOf "00:00:01.000") (strOf "00:00:04.000") (strOf "   ") 1
      = none := by
  exact ⟨rfl, rfl⟩

/-- C4: for non-empty text and a positive stride,
`generate_word_by_word_caption` walks the words in order in strides of
`words_per_chunk` (the chunk texts are exactly the joined stride slices),
each chunk spans `words_per_chunk * ((end - start) / word_count)` and
starts where the previous chunk ended, beginning at `start`; in
particular 0→10 s over `"a b c d e"` with stride 1 gives 5 chunks of
exactly 2.000 s each, the last ending at 10.000 s. -/
theorem generate_word_by_word_strides :
    (∀ (s e text : List Char) (wpc : Nat), 0 < wpc → splitWS text ≠ [] →
      ∃ cs, generate_word_by_word_caption s e text wpc = some cs ∧
        ChunksChained ((parse_timestamp s : Int) : ℚ) cs ∧
        (∀ c ∈ cs, c.stopQ - c.startQ = (wpc : ℚ) *
          ((((parse_timestamp e : Int) : ℚ) - ((parse_timestamp s : Int) : ℚ)) /
            ((splitWS text).length : ℚ))) ∧
        cs.map RawChunk.text = (chunksOf wpc (splitWS text)).map joinSpace) ∧
    (generate_word_by_word_caption (strOf "00:00:00.000") (strOf "00:00:10.000")
        (strOf "a b c d e") 1).map (fun cs => cs.map (fun c => (c.startQ, c.stopQ)))
      = some [(0, 2000), (2000, 4000), (4000, 6000), (6000, 8000), (8000, 10000)] := by
  constructor
  · intro s e text wpc hw hne
    unfold generate_word_by_word_caption
    simp only []
    rw [if_neg (by simpa [List.length_eq_zero] using hne),
      if_neg (Nat.pos_iff_ne_zero.mp hw)]
    refine ⟨_, rfl, wbwChunks_chained _ _ _ _, fun c hc => ?_, wbwChunks_texts _ _ _ _⟩
    rw [mul_comm]
    exact wbwChunks_span _ _ _ _ c hc
  · have h1 : parse_timestamp (strOf "00:00:00.000") = 0 := rfl
    have h2 : parse_timestamp (strOf "00:00:10.000") = 10000 := rfl
    have h3 : splitWS (strOf "a b c d e") = [['a'], ['b'], ['c'], ['d'], ['e']] := rfl
    unfold generate_word_by_word_caption
    simp only [h1, h2, h3]
    norm_num [wbwChunks_cons, wbwChunks_nil]

/-- C4 witness: the stride theorem applied at the concrete input
`start = 00:00:00.000`, `end = 00:00:10.000`, text `"a b c d e"`,
stride 1. -/
theorem generate_word_by_word_strides_witness :
    ∃ cs, generate_word_by_word_caption (strOf "00:00:00.000") (strOf "00:00:10.000")
        (strOf "a b c d e") 1 = some cs ∧
      ChunksChained ((parse_timestamp (strOf "00:00:00.000") : Int) : ℚ) cs ∧
      (∀ c ∈ cs, c.stopQ - c.startQ = ((1 : Nat) : ℚ) *
        ((((parse_timestamp (strOf "00:00:10.000") : Int) : ℚ)
            - ((parse_timestamp (strOf "00:00:00.000") : Int) : ℚ)) /
          ((splitWS (strOf "a b c d e")).length : ℚ))) ∧
      cs.map RawChunk.text = (chunksOf 1 (splitWS (strOf "a b c d e"))).map joinSpace :=
  generate_word_by_word_strides.1 (strOf "00:00:00.000") (strOf "00:00:10.000")
    (strOf "a b c d e") 1 (by decide) (by decide)

/-- C10: when the word count is positive but not a multiple of
`words_per_chunk`, the final chunk still gets a full
`words_per_chunk * (duration / word_count)` slice, so with `end > start`
the last chunk's end strictly overshoots the caption's `end`. -/
theorem generate_word_by_word_overshoot (s e text : List Char) (wpc : Nat)
    (hw : 0 < wpc) (hnd : ¬ wpc ∣ (splitWS text).length)
    (hlt : parse_timestamp s < parse_timestamp e) :
    ∃ cs c, generate_word_by_word_caption s e text wpc = some cs ∧
      cs.getLast? = some c ∧ ((parse_timestamp e : Int) : ℚ) < c.stopQ := by
  have hne : splitWS text ≠ [] := by
    intro h
    exact hnd (by rw [h]; exact dvd_zero wpc)
  unfold generate_word_by_word_caption
  simp only []
  rw [if_neg (by simpa [List.length_eq_zero] using hne),
    if_neg (Nat.pos_iff_ne_zero.mp hw)]
  set qs : ℚ := ((parse_timestamp s : Int) : ℚ) with hqs
  set qe : ℚ := ((parse_timestamp e : Int) : ℚ) with hqe
  set tw : Nat := (splitWS text).length with htw
  set wd : ℚ := (qe - qs) / (tw : ℚ) with hwd
  obtain ⟨c, hlast, hstop⟩ := wbwChunks_getLast wpc wd qs (splitWS text) hne
  refine ⟨_, c, rfl, hlast, ?_⟩
  rw [hstop]
  have hlen := wbwChunks_length_mul_strict wpc wd qs (splitWS text) hw hnd
  have htwpos : (0 : ℚ) < (tw : ℚ) := by
    have : 0 < tw := by
      rw [htw]
      exact List.length_pos.mpr hne
    exact_mod_cast this
  have hdq : (0 : ℚ) < qe - qs := by
    rw [hqe, hqs]
    exact sub_pos.mpr (by exact_mod_cast hlt)
  have hmul : ((wbwChunks wpc wd qs (splitWS text)).length : ℚ) * (wd * wpc)
      = (((wbwChunks wpc wd qs (splitWS text)).length * wpc : Nat) : ℚ) * ((qe - qs) / (tw : ℚ)) := by
    rw [hwd]
    push_cast
    ring
  have hgt : (((wbwChunks wpc wd qs (splitWS text)).length * wpc : Nat) : ℚ)
      * ((qe - qs) / (tw : ℚ)) > (tw : ℚ) * ((qe - qs) / (tw : ℚ)) := by
    apply mul_lt_mul_of_pos_right
    · exact_mod_cast hlen
    · exact div_pos hdq htwpos
  have hcancel : (tw : ℚ) * ((qe - qs) / (tw : ℚ)) = qe - qs := by
    rw [mul_comm]
    exact div_mul_cancel₀ _ (ne_of_gt htwpos)
  rw [hmul]
  have := hcancel ▸ hgt
  linarith

/-- C10 witness: the overshoot theorem at `start = 00:00:00.000`,
`end = 00:00:10.000`, text `"a b c"` (3 words), stride 2: the two chunks
span 20/3 s each, the second ending at 40/3 s > 10 s. -/
theorem generate_word_by_word_overshoot_witness :
    ∃ cs c, generate_word_by_word_caption (strOf "00:00:00.000") (strOf "00:00:10.000")
        (strOf "a b c") 2 = some cs ∧
      cs.getLast? = some c ∧
      ((parse_timestamp (strOf "00:00:10.000") : Int) : ℚ) < c.stopQ :=
  generate_word_by_word_overshoot (strOf "00:00:00.000") (strOf "00:00:10.000")
    (strOf "a b c") 2 (by decide) (by decide) (by decide)

/-! ### `add_caption` (C7) and `_convert_whisper_to_vtt` (C6) -/

/-- C7 counterexample: `add_caption` appends a zero-length caption
verbatim — the stored caption has `end` equal to `start` (a parsed
duration of 0 ms), so it is neither rejected nor coerced to a minimum
1 ms duration. -/
theorem add_caption_zero_length_cex :
    add_caption [] (strOf "00:00:01.000") (strOf "00:00:01.000") (strOf "x") none
      = [⟨strOf "00:00:01.000", strOf "00:00:01.000", strOf "x", none⟩] ∧
    parse_timestamp (strOf "00:00:01.000") - parse_timestamp (strOf "00:00:01.000") = 0 :=
  ⟨rfl, by norm_num⟩

/-- C7 amended: `add_caption` performs no validation at all: every call
appends exactly one caption, stored verbatim (whatever its timing). -/
theorem add_caption_appends_verbatim (captions : List Caption)
    (start_time end_time text : List Char) (style : Option (List Char)) :
    (add_caption captions start_time end_time text style).length = captions.length + 1 ∧
    (add_caption captions start_time end_time text style).getLast?
      = some ⟨start_time, end_time, text, style⟩ := by
  constructor
  · simp [add_caption]
  · simp [add_caption]

/-- C6 counterexample: a surviving segment with `end == start` (here both
1.0 s) passes through `_convert_whisper_to_vtt` with its timing
unchanged: the emitted cue's end equals its start, not `start + 1 ms` —
no clamping is performed. -/
theorem convert_whisper_no_clamp_cex :
    (convert_whisper_to_vtt [⟨1, 1, strOf "Hi"⟩]).map (fun c => (c.idx, c.startQ, c.stopQ, c.text))
      = [(1, 1, 1, strOf "Hi")] ∧
    ¬ ((1 : ℚ) + 1 / 1000 ≤ 1) :=
  ⟨rfl, by norm_num⟩

/-- C6 amended: `_convert_whisper_to_vtt` drops segments whose stripped
text is empty and passes the surviving segments through with `start` and
`end` completely unchanged (in particular, no end-clamping of any kind). -/
theorem convert_whisper_passthrough (segments : List WhisperSeg) :
    (convert_whisper_to_vtt segments).map (fun c => (c.startQ, c.stopQ, c.text))
      = (segments.filter (fun s => pyStrip s.text ≠ [])).map
          (fun s => (s.start, s.stop, pyStrip s.text)) := by
  suffices h : ∀ (i : Nat) (segs : List WhisperSeg),
      (whisperCues i segs).map (fun c => (c.startQ, c.stopQ, c.text))
        = (segs.filter (fun s => pyStrip s.text ≠ [])).map
            (fun s => (s.start, s.stop, pyStrip s.text)) from h 1 segments
  intro i segs
  induction segs generalizing i with
  | nil => rfl
  | cons sg rest ih =>
    rw [whisperCues, List.filter_cons]
    by_cases hs : pyStrip sg.text ≠ []
    · simp [hs, ih]
    · simp only [not_not] at hs
      simp [hs, ih]

/-! ### Lemmas: `pyStrip`, `splitWS`, `joinSpace`, `chunksOf` -/

theorem mem_of_getLast?_eq {α : Type} (l : List α) (a : α) (h : l.getLast? = some a) :
    a ∈ l := by
  have hm : a ∈ l.getLast? := Option.mem_def.mpr h
  obtain ⟨hne, rfl⟩ := List.mem_getLast?_eq_getLast hm
  exact List.getLast_mem hne

theorem mem_dropWhile_of_not {α : Type} (p : α → Bool) (l : List α) (c : α)
    (hc : c ∈ l) (hp : p c = false) : c ∈ l.dropWhile p := by
  have hsplit := List.takeWhile_append_dropWhile p l
  rw [← hsplit] at hc
  rcases List.mem_append.mp hc with h | h
  · exact absurd (List.mem_takeWhile_imp h) (by simp [hp])
  · exact h

theorem mem_pyStrip_of_not_space (l : List Char) (c : Char)
    (hc : c ∈ l) (hp : isSpaceChar c = false) : c ∈ pyStrip l := by
  unfold pyStrip
  rw [List.mem_reverse]
  exact mem_dropWhile_of_not _ _ c
    (List.mem_reverse.mpr (mem_dropWhile_of_not _ _ c hc hp)) hp

theorem pyStrip_ne_nil_of_mem (l : List Char) (c : Char)
    (hc : c ∈ l) (hp : isSpaceChar c = false) : pyStrip l ≠ [] := by
  intro h
  have := mem_pyStrip_of_not_space l c hc hp
  rw [h] at this
  exact List.not_mem_nil c this

theorem head?_dropWhile_not {α : Type} (p : α → Bool) (l : List α) :
    ∀ c, (l.dropWhile p).head? = some c → p c = false := by
  induction l with
  | nil => intro c hc; cases hc
  | cons x xs ih =>
    intro c hc
    rw [List.dropWhile] at hc
    cases hx : p x with
    | true =>
      rw [hx] at hc
      exact ih c hc
    | false =>
      rw [hx] at hc
      simp only [List.head?_cons, Option.some.injEq] at hc
      subst hc
      exact hx

theorem pyStrip_getLast_not_space (l : List Char) (h : pyStrip l ≠ []) :
    ∃ c, (pyStrip l).getLast? = some c ∧ isSpaceChar c = false := by
  unfold pyStrip at h ⊢
  cases hm : ((l.dropWhile isSpaceChar).reverse.dropWhile isSpaceChar).head? with
  | none =>
    rw [List.head?_eq_none_iff] at hm
    rw [hm] at h
    exact absurd rfl h
  | some c =>
    refine ⟨c, ?_, head?_dropWhile_not _ _ c hm⟩
    rw [List.getLast?_reverse]
    exact hm

theorem singleton_word_ok (x : Char) (hx : ¬ isSpaceChar x = true) :
    ([x] : List Char) ≠ [] ∧ ∀ c ∈ [x], isSpaceChar c = false := by
  refine ⟨by simp, ?_⟩
  intro c hc
  simp only [List.mem_singleton] at hc
  subst hc
  simpa using hx

theorem splitWS_words (l : List Char) :
    ∀ w ∈ splitWS l, w ≠ [] ∧ ∀ c ∈ w, isSpaceChar c = false := by
  induction l using splitWS.induct with
  | case1 => intro w hw; cases hw
  | case2 x xs hx ih =>
    intro w hw
    have he : splitWS (x :: xs) = splitWS xs := by simp [splitWS, hx]
    rw [he] at hw
    exact ih w hw
  | case3 x hx _ih =>
    intro w hw
    have he : splitWS [x] = [[x]] := by simp [splitWS, hx]
    rw [he] at hw
    simp only [List.mem_singleton] at hw
    subst hw
    exact singleton_word_ok x hx
  | case4 x hx y tail hy ih =>
    intro w hw
    have he : splitWS (x :: y :: tail) = [x] :: splitWS (y :: tail) := by
      simp [splitWS, hx, hy]
    rw [he] at hw
    rcases List.mem_cons.mp hw with rfl | hw
    · exact singleton_word_ok x hx
    · exact ih w hw
  | case5 x hx y tail hy hsp ih =>
    intro w hw
    have he : splitWS (x :: y :: tail) = [[x]] := by
      rw [splitWS.eq_def]
      dsimp only
      rw [if_neg hx, if_neg hy, hsp]
    rw [he] at hw
    simp only [List.mem_singleton] at hw
    subst hw
    exact singleton_word_ok x hx
  | case6 x hx y tail hy p ps heq ih =>
    intro w hw
    have he : splitWS (x :: y :: tail) = (x :: p) :: ps := by
      rw [splitWS.eq_def]
      dsimp only
      rw [if_neg hx, if_neg hy, heq]
    rw [he] at hw
    rcases List.mem_cons.mp hw with rfl | hw
    · have h0 := ih p (by rw [heq]; exact List.mem_cons_self p ps)
      refine ⟨by simp, ?_⟩
      intro c hc
      rcases List.mem_cons.mp hc with rfl | hc
      · simpa using hx
      · exact h0.2 c hc
    · exact ih w (by rw [heq]; exact List.mem_cons_of_mem p hw)

theorem mem_joinSpace_of_mem_head (w : List Char) (ws : List (List Char)) (c : Char)
    (hc : c ∈ w) : c ∈ joinSpace (w :: ws) := by
  cases ws with
  | nil => simpa [joinSpace] using hc
  | cons y ys =>
    show c ∈ w ++ ' ' :: joinSpace (y :: ys)
    exact List.mem_append.mpr (Or.inl hc)

theorem chunksOf_mem {α : Type} (n : Nat) (l : List α) :
    ∀ c ∈ chunksOf n l, c ≠ [] ∧ ∀ x ∈ c, x ∈ l := by
  induction l using chunksOf.induct n with
  | case1 => intro c hc; rw [chunksOf] at hc; cases hc
  | case2 x xs ih =>
    intro c hc
    rw [chunksOf] at hc
    rcases List.mem_cons.mp hc with rfl | hc
    · refine ⟨by simp, ?_⟩
      intro z hz
      rcases List.mem_cons.mp hz with rfl | hz
      · exact List.mem_cons_self z xs
      · exact List.mem_cons_of_mem x (List.take_subset _ _ hz)
    · obtain ⟨h1, h2⟩ := ih c hc
      exact ⟨h1, fun z hz => List.mem_cons_of_mem x (List.drop_subset _ _ (h2 z hz))⟩

theorem split_into_subtitles_strip_ne (text : List Char) :
    ∀ s ∈ split_into_subtitles text, pyStrip s ≠ [] := by
  intro s hs
  unfold split_into_subtitles at hs
  simp only [List.mem_flatMap] at hs
  obtain ⟨sentence, hsen, hsin⟩ := hs
  rw [List.mem_filter] at hsen
  obtain ⟨hmem, hne⟩ := hsen
  rw [List.mem_map] at hmem
  obtain ⟨t, _ht, hteq⟩ := hmem
  have hne' : sentence ≠ [] := by simpa using hne
  by_cases hlen : (splitWS sentence).length ≤ 15
  · rw [if_pos hlen] at hsin
    simp only [List.mem_singleton] at hsin
    subst hsin
    obtain ⟨c, hlast, hcns⟩ := pyStrip_getLast_not_space t (by rw [hteq]; exact hne')
    rw [hteq] at hlast
    exact pyStrip_ne_nil_of_mem s c (mem_of_getLast?_eq s c hlast) hcns
  · rw [if_neg hlen] at hsin
    rw [List.mem_map] at hsin
    obtain ⟨chunk, hchunk, hjoin⟩ := hsin
    obtain ⟨hcne, hsub⟩ := chunksOf_mem 10 (splitWS sentence) chunk hchunk
    obtain ⟨w, rest, rfl⟩ := List.exists_cons_of_ne_nil hcne
    have hw := splitWS_words sentence w (hsub w (List.mem_cons_self w rest))
    obtain ⟨c, hcw⟩ := List.exists_mem_of_ne_nil w hw.1
    have hcj : c ∈ joinSpace (w :: rest) := mem_joinSpace_of_mem_head w rest c hcw
    rw [hjoin] at hcj
    exact pyStrip_ne_nil_of_mem s c hcj (hw.2 c hcw)

/-! ### Lemmas: `timedCues` / `_convert_text_to_timed_vtt` -/

theorem timedCues_length (tpc total : ℚ) :
    ∀ (i : Nat) (ss : List (List Char)), (∀ s ∈ ss, pyStrip s ≠ []) →
      (timedCues tpc total i ss).length = ss.length := by
  intro i ss
  induction ss generalizing i with
  | nil => intro _; rfl
  | cons s rest ih =>
    intro hall
    rw [timedCues]
    rw [if_pos (hall s (List.mem_cons_self s rest))]
    simp only [List.singleton_append, List.length_cons]
    rw [ih (i + 1) (fun t ht => hall t (List.mem_cons_of_mem s ht))]

theorem timedCues_start_lb (tpc total : ℚ) (h0 : 0 ≤ tpc) :
    ∀ (i : Nat) (ss : List (List Char)), ∀ cue ∈ timedCues tpc total i ss,
      (i : ℚ) * tpc ≤ cue.startQ := by
  intro i ss
  induction ss generalizing i with
  | nil => intro cue hcue; cases hcue
  | cons s rest ih =>
    intro cue hcue
    rw [timedCues] at hcue
    rcases List.mem_append.mp hcue with h | h
    · by_cases hs : pyStrip s ≠ []
      · rw [if_pos hs] at h
        simp only [List.mem_singleton] at h
        subst h
        exact le_refl _
      · rw [if_neg hs] at h
        cases h
    · have := ih (i + 1) cue h
      refine le_trans ?_ this
      have : (i : ℚ) ≤ ((i + 1 : Nat) : ℚ) := by push_cast; linarith
      exact mul_le_mul_of_nonneg_right this h0

theorem timedCues_pairwise (tpc total : ℚ) (h0 : 0 ≤ tpc) :
    ∀ (i : Nat) (ss : List (List Char)),
      (timedCues tpc total i ss).Pairwise (fun a b => a.startQ ≤ b.startQ) := by
  intro i ss
  induction ss generalizing i with
  | nil => exact List.Pairwise.nil
  | cons s rest ih =>
    rw [timedCues]
    by_cases hs : pyStrip s ≠ []
    · rw [if_pos hs]
      rw [List.singleton_append]
      refine List.Pairwise.cons ?_ (ih (i + 1))
      intro cue hcue
      have hlb := timedCues_start_lb tpc total h0 (i + 1) rest cue hcue
      refine le_trans ?_ hlb
      have : (i : ℚ) ≤ ((i + 1 : Nat) : ℚ) := by push_cast; linarith
      exact mul_le_mul_of_nonneg_right this h0
    · rw [if_neg hs, List.nil_append]
      exact ih (i + 1)

theorem timedCues_stop_le (tpc total : ℚ) :
    ∀ (i : Nat) (ss : List (List Char)), ∀ cue ∈ timedCues tpc total i ss,
      cue.stopQ ≤ total := by
  intro i ss
  induction ss generalizing i with
  | nil => intro cue hcue; cases hcue
  | cons s rest ih =>
    intro cue hcue
    rw [timedCues] at hcue
    rcases List.mem_append.mp hcue with h | h
    · by_cases hs : pyStrip s ≠ []
      · rw [if_pos hs] at h
        simp only [List.mem_singleton] at h
        subst h
        exact min_le_right _ _
      · rw [if_neg hs] at h
        cases h
    · exact ih (i + 1) cue h

theorem timedCues_getLast_stop (tpc total : ℚ) :
    ∀ (i : Nat) (ss : List (List Char)), (∀ s ∈ ss, pyStrip s ≠ []) → ss ≠ [] →
      ((timedCues tpc total i ss).getLast?).map TimedCue.stopQ
        = some (min (((i + ss.length : Nat) : ℚ) * tpc) total) := by
  intro i ss
  induction ss generalizing i with
  | nil => intro _ hne; exact absurd rfl hne
  | cons s rest ih =>
    intro hall _hne
    rw [timedCues]
    rw [if_pos (hall s (List.mem_cons_self s rest))]
    cases rest with
    | nil =>
      simp only [timedCues, List.append_nil, List.getLast?_singleton, Option.map_some]
      norm_num
    | cons s2 rest2 =>
      have hall' : ∀ t ∈ s2 :: rest2, pyStrip t ≠ [] :=
        fun t ht => hall t (List.mem_cons_of_mem s ht)
      have htail : timedCues tpc total (i + 1) (s2 :: rest2) ≠ [] := by
        intro h
        have := timedCues_length tpc total (i + 1) (s2 :: rest2) hall'
        rw [h] at this
        simp at this
      rw [List.getLast?_append_of_ne_nil _ htail]
      rw [ih (i + 1) hall' (by simp)]
      have hn : (i + 1 + (s2 :: rest2).length : Nat) = (i + (s :: s2 :: rest2).length : Nat) := by
        simp only [List.length_cons]
        omega
      rw [hn]

/-- C1: for any transcript text and positive `total_duration`, the
plain-text fallback produces exactly one cue per chunk of the splitting
rule (`_split_into_subtitles`), with non-decreasing start times, and —
when any cue exists — the last cue's end equal to `total_duration`
exactly.  The function is total (never raises): the only division is by
the chunk count, taken only when it is non-zero. -/
theorem convert_text_to_timed_vtt_spec (text : List Char) (total_duration : ℚ)
    (hD : 0 < total_duration) :
    (convert_text_to_timed_vtt text total_duration).length
        = (split_into_subtitles text).length ∧
    (convert_text_to_timed_vtt text total_duration).Pairwise
        (fun a b => a.startQ ≤ b.startQ) ∧
    (convert_text_to_timed_vtt text total_duration ≠ [] →
      ((convert_text_to_timed_vtt text total_duration).getLast?).map TimedCue.stopQ
        = some total_duration) := by
  unfold convert_text_to_timed_vtt
  simp only []
  by_cases hne : split_into_subtitles text ≠ []
  · rw [if_pos hne]
    have hall := split_into_subtitles_strip_ne text
    have hN : 0 < (split_into_subtitles text).length := List.length_pos.mpr hne
    have hNQ : (0 : ℚ) < ((split_into_subtitles text).length : ℚ) := by exact_mod_cast hN
    have htpc : 0 ≤ total_duration / ((split_into_subtitles text).length : ℚ) :=
      le_of_lt (div_pos hD hNQ)
    refine ⟨timedCues_length _ _ 0 _ hall, timedCues_pairwise _ _ htpc 0 _, fun _ => ?_⟩
    rw [timedCues_getLast_stop _ _ 0 _ hall hne]
    congr 1
    have hc : ((0 + (split_into_subtitles text).length : Nat) : ℚ)
        = ((split_into_subtitles text).length : ℚ) := by push_cast; ring
    rw [hc, mul_comm, div_mul_cancel₀ _ (ne_of_gt hNQ), min_self]
  · rw [if_neg hne]
    simp only [not_not] at hne
    rw [hne]
    exact ⟨by simp [timedCues], by simp [timedCues], by simp [timedCues]⟩

/-- C1 witness: the fallback-timing theorem at the concrete transcript
`"Hi. Bye!"` with a 10-second duration (two chunks: 0–5 s and 5–10 s). -/
theorem convert_text_to_timed_vtt_spec_witness :
    (convert_text_to_timed_vtt (strOf "Hi. Bye!") 10).length
        = (split_into_subtitles (strOf "Hi. Bye!")).length ∧
    (convert_text_to_timed_vtt (strOf "Hi. Bye!") 10).Pairwise
        (fun a b => a.startQ ≤ b.startQ) ∧
    (convert_text_to_timed_vtt (strOf "Hi. Bye!") 10 ≠ [] →
      ((convert_text_to_timed_vtt (strOf "Hi. Bye!") 10).getLast?).map TimedCue.stopQ
        = some 10) :=
  convert_text_to_timed_vtt_spec (strOf "Hi. Bye!") 10 (by norm_num)

/-- C8 counterexample: `_convert_text_to_timed_vtt` applies no 1-second
minimum to a non-positive duration: with `total_duration = 0` the text
`"Hello"` yields a single cue spanning 0 s (from 0 to 0), not 1.0 s. -/
theorem convert_text_no_minimum_cex :
    (convert_text_to_timed_vtt (strOf "Hello") 0).map (fun c => (c.startQ, c.stopQ, c.text))
      = [(0, 0, strOf "Hello")] ∧
    ((convert_text_to_timed_vtt (strOf "Hello") 0).getLast?).map TimedCue.stopQ ≠ some 1 := by
  have hso : strOf "Hello" = ['H', 'e', 'l', 'l', 'o'] := rfl
  have hs : split_into_subtitles (strOf "Hello") = [strOf "Hello"] := rfl
  have hstrip : pyStrip ['H', 'e', 'l', 'l', 'o'] = ['H', 'e', 'l', 'l', 'o'] := rfl
  have hcne : ¬ ((['H', 'e', 'l', 'l', 'o'] : List Char) = []) := by decide
  unfold convert_text_to_timed_vtt
  constructor <;> norm_num [hs, hso, hstrip, hcne, timedCues]

/-- C8 amended: with `total_duration_seconds ≤ 0` the duration is used
as-is (no 1.0-second minimum is substituted): every produced cue's end is
`≤ 0`.  No division by zero occurs for any input, because the division is
by the chunk count, not the duration. -/
theorem convert_text_nonpositive_duration (text : List Char) (total_duration : ℚ)
    (hD : total_duration ≤ 0) :
    (convert_text_to_timed_vtt text total_duration).all
      (fun cue => decide (cue.stopQ ≤ 0)) = true := by
  simp only [List.all_eq_true, decide_eq_true_eq]
  intro cue hcue
  unfold convert_text_to_timed_vtt at hcue
  exact le_trans (timedCues_stop_le _ _ _ _ cue hcue) hD

/-- C8 witness: the amended theorem at text `"Hello"`, duration 0. -/
theorem convert_text_nonpositive_duration_witness :
    (convert_text_to_timed_vtt (strOf "Hello") 0).all
      (fun cue => decide (cue.stopQ ≤ 0)) = true :=
  convert_text_nonpositive_duration (strOf "Hello") 0 le_rfl

/-- C9 counterexample: for the text `"..."` the splitting rule yields zero
chunks, and `_convert_text_to_timed_vtt` emits zero cues — not a single
whole-text cue spanning the duration. -/
theorem convert_text_zero_chunks_cex :
    split_into_subtitles (strOf "...") = [] ∧
    convert_text_to_timed_vtt (strOf "...") 10 = [] :=
  ⟨rfl, rfl⟩

/-- C9 amended: when the splitting rule yields zero chunks, the loop body
never runs and no cue is emitted (the output is just the `WEBVTT` header,
i.e. the empty cue list). -/
theorem convert_text_zero_chunks_empty (text : List Char) (total_duration : ℚ)
    (h : split_into_subtitles text = []) :
    convert_text_to_timed_vtt text total_duration = [] := by
  unfold convert_text_to_timed_vtt
  simp only [h]
  rfl

/-- C9 witness: the amended theorem at text `"!!!"`, duration 5. -/
theorem convert_text_zero_chunks_empty_witness :
    convert_text_to_timed_vtt (strOf "!!!") 5 = [] :=
  convert_text_zero_chunks_empty (strOf "!!!") 5 rfl

end CaptionCraft
